import Mathlib

/-!
Verification development for the HealthSecure retrieval and reranking core.

This file gives a shallow embedding of the fusion / reranking pipeline of
the repository (`ai-service/advanced_reranker.py` and
`ai-service/hybrid_retriever.py`) and proves properties of it.

Modelling conventions:
* Python floats are modelled by exact rationals (ℚ); all the score
  arithmetic of the source (sums, products, reciprocal ranks, divisions)
  is carried out exactly.
* Python dicts carrying candidate payloads are modelled by structures with
  the same fields; the open-ended metadata mapping is carried as an opaque
  association list, it is never inspected by the core.
* External pretrained models (FlashRank, MixedBread, the cross-encoders)
  are modelled as oracle functions of type String → String → ℚ (query and
  passage content to score), wrapped in Option: none means the model is
  unavailable, exactly like the Python constructors that set the handle to
  None when an import or a load fails.
* Python list.sort(key=..., reverse=True) is a stable descending sort; it
  is modelled with the stable insertion sort `stableSortBy` below and the
  comparison "second score ≤ first score" (a stable sort's output is
  uniquely determined by a total comparison and the input order).
-/

namespace HealthSecure

/- Batteries marks the rational-number field operations irreducible; the
concrete evaluations below need them to reduce. This is proof-side only
and does not change any definition. -/
attribute [local semireducible] Rat.add Rat.mul Rat.sub Rat.inv Rat.ofScientific

/-- A retrievable candidate as handed to the reranker: the Python dict with
keys chunk_id, content, similarity and metadata. -/
structure Doc where
  chunk_id : String
  content : String
  similarity : ℚ := 0
  metadata : List (String × String) := []
deriving DecidableEq

/-- `RerankResult` of advanced_reranker.py: per-candidate output record with
the combined score and the optional per-model scores. -/
structure RerankResult where
  chunk_id : String
  content : String
  original_score : ℚ
  rerank_score : ℚ
  flashrank_score : Option ℚ := none
  cross_encoder_score : Option ℚ := none
  mxbai_score : Option ℚ := none
  keyword_score : Option ℚ := none
  metadata : List (String × String) := []
deriving DecidableEq

/-! ## Keyword booster (`KeywordBooster` in advanced_reranker.py) -/

/-- The fixed medical vocabulary of `KeywordBooster.__init__` (a Python set;
only membership and iteration-for-summation are used, so a list is a
faithful model). -/
def medicalKeywords : List String :=
  ["blood pressure", "heart rate", "temperature", "oxygen saturation",
   "glucose", "hemoglobin", "cholesterol", "triglycerides",
   "diagnosis", "treatment", "medication", "prescription",
   "patient", "vital signs", "lab results", "symptoms"]

/-- Helper for `pySplit`: cut a character list at whitespace characters,
keeping the (possibly empty) segments between them. -/
def splitWsAux : List Char → List Char → List String
  | [], acc => [String.mk acc.reverse]
  | c :: cs, acc =>
    if c.isWhitespace then String.mk acc.reverse :: splitWsAux cs []
    else splitWsAux cs (c :: acc)

/-- Python str.split(): split on whitespace, dropping empty tokens. -/
def pySplit (s : String) : List String :=
  (splitWsAux s.data []).filter (fun t => t ≠ "")

/-- Python str.lower(), character by character. -/
def pyToLower (s : String) : String := String.mk (s.data.map Char.toLower)

/-- Python substring containment `needle in hay`. -/
def pyContains (hay needle : String) : Bool :=
  decide (needle.data <:+: hay.data)

/-- `KeywordBooster.calculate_boost`: phrase matches add 0.1 each (the
Python loop accumulates 0.1 per matching vocabulary entry, i.e. 0.1 times
the number of matches), word overlap is the size of the intersection of
the two token sets divided by max(|query tokens|, 1), and the result is
min(phrase + 0.5 * overlap, 1.0). Token sets are modelled by deduplicated
token lists (same cardinalities as Python sets). -/
def calculateBoost (query content : String) : ℚ :=
  let queryLower := pyToLower query
  let contentLower := pyToLower content
  let queryKeywords := (pySplit queryLower).dedup
  let contentKeywords := (pySplit contentLower).dedup
  let phraseMatch : ℚ :=
    ((medicalKeywords.filter
        (fun kw => pyContains queryLower kw && pyContains contentLower kw)).length : ℚ) * (0.1 : ℚ)
  let overlap : ℚ :=
    ((queryKeywords.filter (fun t => t ∈ contentKeywords)).length : ℚ)
      / (max queryKeywords.length 1 : ℕ)
  min (phraseMatch + overlap * (0.5 : ℚ)) 1

/-- Claim-side phrase score of C8: 0.1 for each vocabulary phrase occurring
(case-insensitively) as a substring of both query and content. -/
def phraseScoreSpec (query content : String) : ℚ :=
  ((medicalKeywords.filter
      (fun kw => pyContains (pyToLower query) kw && pyContains (pyToLower content) kw)).length : ℚ)
    * (0.1 : ℚ)

/-- Claim-side overlap score of C8: |query tokens ∩ content tokens| divided
by max(|query tokens|, 1), over whitespace-split lower-cased token sets. -/
def overlapScoreSpec (query content : String) : ℚ :=
  (((pySplit (pyToLower query)).dedup.filter
      (fun t => t ∈ (pySplit (pyToLower content)).dedup)).length : ℚ)
    / (max (pySplit (pyToLower query)).dedup.length 1 : ℕ)

/-- C8: KeywordBooster.calculate_boost is the pure function
min(phrase_score + 0.5 * overlap_score, 1.0) over the fixed medical
vocabulary and whitespace-lowercased token sets, and its value always lies
in the interval [0, 1]. -/
theorem keyword_boost_bounds (query content : String) :
    calculateBoost query content
      = min (phraseScoreSpec query content + (0.5 : ℚ) * overlapScoreSpec query content) 1
    ∧ 0 ≤ calculateBoost query content ∧ calculateBoost query content ≤ 1 := by
  have hphrase : 0 ≤ phraseScoreSpec query content := by
    unfold phraseScoreSpec
    positivity
  have hoverlap : 0 ≤ overlapScoreSpec query content := by
    unfold overlapScoreSpec
    positivity
  have heq : calculateBoost query content
      = min (phraseScoreSpec query content + (0.5 : ℚ) * overlapScoreSpec query content) 1 := by
    unfold calculateBoost phraseScoreSpec overlapScoreSpec
    ring_nf
  refine ⟨heq, ?_, ?_⟩
  · rw [heq]
    have : 0 ≤ phraseScoreSpec query content + (0.5 : ℚ) * overlapScoreSpec query content := by
      have := mul_nonneg (by norm_num : (0:ℚ) ≤ 0.5) hoverlap
      linarith
    exact le_min this (by norm_num)
  · rw [heq]
    exact min_le_right _ _

/-! ## The hybrid reranker (`AdvancedHybridReranker` in advanced_reranker.py)

The orchestrator holds up to three model handles plus the keyword booster.
A handle is None when the model could not be loaded; `Models` mirrors that
state with Option-typed oracles.  All four strategy methods are embedded
below, each following its Python source line by line. -/

/-! ### Stable sorting

Python's `list.sort` / `sorted` is a stable sort.  A stable sort's output
is uniquely determined by the comparison (for a total comparison, equal
elements keep their input order), so it is modelled here by a stable
insertion sort, which is structurally recursive and therefore convenient
for concrete evaluation. -/

/-- Insert an element into a list, in front of the first element it
compares no-worse than. Keeps earlier-inserted equal elements in front,
which is exactly stability. -/
def insertStable (le : α → α → Bool) (a : α) : List α → List α
  | [] => [a]
  | b :: l => if le a b then a :: b :: l else b :: insertStable le a l

/-- Stable sort by a boolean total comparison (model of Python's stable
sort: `le a b` means a may come before b). -/
def stableSortBy (le : α → α → Bool) : List α → List α
  | [] => []
  | a :: l => insertStable le a (stableSortBy le l)

lemma insertStable_perm (le : α → α → Bool) (a : α) (l : List α) :
    List.Perm (insertStable le a l) (a :: l) := by
  induction l with
  | nil => simp [insertStable]
  | cons b l ih =>
    by_cases h : le a b
    · simp [insertStable, h]
    · simp only [insertStable, if_neg h]
      exact (ih.cons b).trans (List.Perm.swap a b l)

lemma stableSortBy_perm (le : α → α → Bool) (l : List α) :
    List.Perm (stableSortBy le l) l := by
  induction l with
  | nil => simp [stableSortBy]
  | cons a l ih =>
    exact (insertStable_perm le a (stableSortBy le l)).trans (ih.cons a)

/-- Sorting an already-sorted list is the identity. -/
lemma stableSortBy_of_sorted (le : α → α → Bool) {l : List α}
    (h : l.Pairwise (fun x y => le x y = true)) : stableSortBy le l = l := by
  induction l with
  | nil => rfl
  | cons a l ih =>
    rw [List.pairwise_cons] at h
    show insertStable le a (stableSortBy le l) = a :: l
    rw [ih h.2]
    cases l with
    | nil => rfl
    | cons b l => simp [insertStable, h.1 b (by simp)]

lemma sorted_insertStable (le : α → α → Bool)
    (htot : ∀ a b, le a b = true ∨ le b a = true)
    (htrans : ∀ a b c, le a b = true → le b c = true → le a c = true)
    (a : α) {l : List α}
    (h : l.Pairwise (fun x y => le x y = true)) :
    (insertStable le a l).Pairwise (fun x y => le x y = true) := by
  induction l with
  | nil => simp [insertStable]
  | cons b l ih =>
    rw [List.pairwise_cons] at h
    by_cases hab : le a b
    · rw [insertStable, if_pos hab]
      refine List.pairwise_cons.2 ⟨?_, List.pairwise_cons.2 h⟩
      intro x hx
      rcases List.mem_cons.1 hx with rfl | hx
      · exact hab
      · exact htrans a b x hab (h.1 x hx)
    · rw [insertStable, if_neg hab]
      refine List.pairwise_cons.2 ⟨?_, ih h.2⟩
      intro x hx
      have hx' := (insertStable_perm le a l).mem_iff.1 hx
      rcases List.mem_cons.1 hx' with rfl | hx''
      · exact (htot x b).resolve_left (by simpa using hab)
      · exact h.1 x hx''

lemma sorted_stableSortBy (le : α → α → Bool)
    (htot : ∀ a b, le a b = true ∨ le b a = true)
    (htrans : ∀ a b c, le a b = true → le b c = true → le a c = true)
    (l : List α) :
    (stableSortBy le l).Pairwise (fun x y => le x y = true) := by
  induction l with
  | nil => simp [stableSortBy]
  | cons a l ih => exact sorted_insertStable le htot htrans a ih

/-- Model handles of an `AdvancedHybridReranker` instance.  An oracle
maps (query, passage content) to the model's relevance score; none means
the handle is None (model unavailable). `keywordBoost` is whether
`self.keyword_booster` is set (default True in the constructor). -/
structure Models where
  flashrank : Option (String → String → ℚ) := none
  mxbai : Option (String → String → ℚ) := none
  crossEncoder : Option (String → String → ℚ) := none
  keywordBoost : Bool := true

/-- Python truthiness of an optional float: None and 0.0 are falsy.  The
strategy combiners test scores with bare `if candidate.some_score:`. -/
def truthy (o : Option ℚ) : Bool :=
  match o with
  | none => false
  | some v => decide (v ≠ 0)

/-- Descending stable comparison on rerank_score, the model of Python's
`results.sort(key=lambda x: x.rerank_score, reverse=True)`. -/
def byRerankDesc (a b : RerankResult) : Bool :=
  decide (b.rerank_score ≤ a.rerank_score)

/-- `AdvancedHybridReranker._fallback_rerank` (identical to the
`_fallback` of the individual rerankers and to the inline fallback of
`_balanced_rerank`): original order, rerank_score = original score. -/
def fallbackRerank (docs : List Doc) (topK : ℕ) : List RerankResult :=
  (docs.take topK).map (fun d =>
    { chunk_id := d.chunk_id, content := d.content,
      original_score := d.similarity, rerank_score := d.similarity,
      metadata := d.metadata })

/-- `FlashRankReranker.rerank` with an available ranker: the external
FlashRank ranker scores every passage and returns them sorted by score
descending; the method truncates to top_k and rebuilds records from the
original documents via the passage ids, so each record carries its own
document's content and similarity together with its FlashRank score. -/
def flashrankRerank (score : String → String → ℚ) (query : String)
    (docs : List Doc) (topK : ℕ) : List RerankResult :=
  let scored := docs.map (fun d => (d, score query d.content))
  let sorted := stableSortBy (fun a b => decide (b.2 ≤ a.2)) scored
  (sorted.take topK).map (fun p =>
    { chunk_id := p.1.chunk_id, content := p.1.content,
      original_score := p.1.similarity, rerank_score := p.2,
      flashrank_score := some p.2, metadata := p.1.metadata })

/-- `MixedBreadReranker.rerank` with an available model: score every
document (aligned zip of documents and predictions), sort by score
descending, truncate to top_k. -/
def mxbaiRerank (score : String → String → ℚ) (query : String)
    (docs : List Doc) (topK : ℕ) : List RerankResult :=
  let results := docs.map (fun d =>
    { chunk_id := d.chunk_id, content := d.content,
      original_score := d.similarity, rerank_score := score query d.content,
      mxbai_score := some (score query d.content), metadata := d.metadata })
  (stableSortBy byRerankDesc results).take topK

/-- `AdvancedHybridReranker._speed_rerank`. -/
def speedRerank (m : Models) (query : String) (docs : List Doc) (topK : ℕ) :
    List RerankResult :=
  let results : List RerankResult :=
    match m.flashrank with
    | some f => flashrankRerank f query docs topK
    | none => fallbackRerank docs topK
  let results : List RerankResult :=
    if m.keywordBoost then
      results.map (fun r =>
        let ks := calculateBoost query r.content
        { r with keyword_score := some ks,
                 rerank_score := r.rerank_score * (1 + ks * (0.1 : ℚ)) })
    else results
  (stableSortBy byRerankDesc results).take topK

/-- The ensemble-scoring block of `_balanced_rerank`: a term enters the
scores list only when the scorer's value is truthy; the sum of the present
terms, or original_score when none is present. -/
def balancedCombine (r : RerankResult) : ℚ :=
  let scores : List ℚ :=
    (if truthy r.flashrank_score then [r.flashrank_score.getD 0 * (0.4 : ℚ)] else [])
      ++ (if truthy r.cross_encoder_score then [r.cross_encoder_score.getD 0 * (0.4 : ℚ)] else [])
      ++ (if truthy r.keyword_score then [r.keyword_score.getD 0 * (0.2 : ℚ)] else [])
  if scores.isEmpty then r.original_score else scores.sum

/-- `AdvancedHybridReranker._balanced_rerank`. -/
def balancedRerank (m : Models) (query : String) (docs : List Doc) (topK : ℕ) :
    List RerankResult :=
  let candidates : List RerankResult :=
    match m.flashrank with
    | some f => flashrankRerank f query docs (topK * 2)
    | none => fallbackRerank docs (topK * 2)
  let candidates : List RerankResult :=
    match m.crossEncoder with
    | some g => candidates.map (fun r =>
        { r with cross_encoder_score := some (g query r.content) })
    | none => candidates
  let candidates : List RerankResult :=
    if m.keywordBoost then
      candidates.map (fun r =>
        { r with keyword_score := some (calculateBoost query r.content) })
    else candidates
  let candidates : List RerankResult :=
    candidates.map (fun r => { r with rerank_score := balancedCombine r })
  (stableSortBy byRerankDesc candidates).take topK

/-- `AdvancedHybridReranker._accurate_rerank`. -/
def accurateRerank (m : Models) (query : String) (docs : List Doc) (topK : ℕ) :
    List RerankResult :=
  let results : List RerankResult :=
    match m.mxbai with
    | some f => mxbaiRerank f query docs (topK * 2)
    | none =>
      match m.crossEncoder with
      | some g =>
        let ceResults : List RerankResult := docs.map (fun d =>
          { chunk_id := d.chunk_id, content := d.content,
            original_score := d.similarity, rerank_score := g query d.content,
            cross_encoder_score := some (g query d.content),
            metadata := d.metadata })
        (stableSortBy byRerankDesc ceResults).take (topK * 2)
      | none => fallbackRerank docs (topK * 2)
  let results : List RerankResult :=
    if m.keywordBoost then
      results.map (fun r =>
        let ks := calculateBoost query r.content
        { r with keyword_score := some ks,
                 rerank_score := r.rerank_score * (1 + ks * (0.15 : ℚ)) })
    else results
  (stableSortBy byRerankDesc results).take topK

/-- The ensemble-scoring block of `_ensemble_rerank`: parallel lists of
truthy scores and their weights (FlashRank 0.25, MixedBread 0.40,
cross-encoder 0.25, keywords 0.10), combined as a weighted average divided
by the sum of the collected weights, or original_score when no score was
collected. -/
def ensembleCombine (r : RerankResult) : ℚ :=
  let sw : List (ℚ × ℚ) :=
    (if truthy r.flashrank_score then [(r.flashrank_score.getD 0, (0.25 : ℚ))] else [])
      ++ (if truthy r.mxbai_score then [(r.mxbai_score.getD 0, (0.40 : ℚ))] else [])
      ++ (if truthy r.cross_encoder_score then [(r.cross_encoder_score.getD 0, (0.25 : ℚ))] else [])
      ++ (if truthy r.keyword_score then [(r.keyword_score.getD 0, (0.10 : ℚ))] else [])
  if sw.isEmpty then r.original_score
  else (sw.map (fun p => p.1 * p.2)).sum / (sw.map Prod.snd).sum

/-- `AdvancedHybridReranker._ensemble_rerank`.  Note the FlashRank block:
the FlashRank result list (which is sorted by FlashRank score, not in
input order) is zipped positionally onto the original-order result list,
exactly as the Python loop `for i, fr in enumerate(flashrank_results):
results[i].flashrank_score = fr.rerank_score` does. -/
def ensembleRerank (m : Models) (query : String) (docs : List Doc) (topK : ℕ) :
    List RerankResult :=
  let results : List RerankResult := docs.map (fun d =>
    { chunk_id := d.chunk_id, content := d.content,
      original_score := d.similarity, rerank_score := 0,
      metadata := d.metadata })
  let results : List RerankResult :=
    match m.flashrank with
    | some f =>
      List.zipWith (fun r fr => { r with flashrank_score := some fr.rerank_score })
        results (flashrankRerank f query docs docs.length)
    | none => results
  let results : List RerankResult :=
    match m.mxbai with
    | some f => results.map (fun r => { r with mxbai_score := some (f query r.content) })
    | none => results
  let results : List RerankResult :=
    match m.crossEncoder with
    | some g => results.map (fun r => { r with cross_encoder_score := some (g query r.content) })
    | none => results
  let results : List RerankResult :=
    if m.keywordBoost then
      results.map (fun r => { r with keyword_score := some (calculateBoost query r.content) })
    else results
  let results : List RerankResult :=
    results.map (fun r => { r with rerank_score := ensembleCombine r })
  (stableSortBy byRerankDesc results).take topK

/-- The strategy selected at construction of an `AdvancedHybridReranker`. -/
inductive Strategy
  | speed
  | balanced
  | accurate
  | ensemble
deriving DecidableEq

/-- `AdvancedHybridReranker.rerank`: empty input short-circuits, otherwise
dispatch on the configured strategy. -/
def rerank (m : Models) (strat : Strategy) (query : String) (docs : List Doc)
    (topK : ℕ) : List RerankResult :=
  if docs.isEmpty then []
  else
    match strat with
    | .speed => speedRerank m query docs topK
    | .balanced => balancedRerank m query docs topK
    | .accurate => accurateRerank m query docs topK
    | .ensemble => ensembleRerank m query docs topK

/-! ## C1: degradation behaviour when every rerank model is unavailable -/

/-- The pass-through record produced for a document when no scorer touches
it: rerank_score equals the original similarity, no per-model scores. -/
def passthroughResult (d : Doc) : RerankResult :=
  { chunk_id := d.chunk_id, content := d.content,
    original_score := d.similarity, rerank_score := d.similarity,
    metadata := d.metadata }

/-- A reranker all of whose model handles failed to load, with the keyword
booster at its constructor default (enabled). -/
def mNoModels : Models :=
  { flashrank := none, mxbai := none, crossEncoder := none, keywordBoost := true }

/-- As `mNoModels`, additionally with the keyword booster disabled. -/
def mNothing : Models :=
  { flashrank := none, mxbai := none, crossEncoder := none, keywordBoost := false }

/-- Concrete candidates for the C1 counterexample: ascending similarity,
and the second one shares its only token with the query. -/
def c1docs : List Doc :=
  [{ chunk_id := "d1", content := "y", similarity := 0.2 },
   { chunk_id := "d2", content := "x", similarity := 0.9 }]

/-- C1 counterexample: with every rerank model unavailable (default
construction, keyword booster enabled), speed-strategy rerank neither
preserves the input order nor keeps rerank_score equal to original_score:
the keyword booster rescales d2 to 0.9 * 1.05 and the final sort by score
moves it ahead of d1. -/
theorem degradation_counterexample :
    ¬ ((rerank mNoModels Strategy.speed "x" c1docs 5).map RerankResult.chunk_id
          = c1docs.map Doc.chunk_id
        ∧ ∀ r ∈ rerank mNoModels Strategy.speed "x" c1docs 5,
            r.rerank_score = r.original_score) := by
  decide

lemma fallbackRerank_eq (docs : List Doc) (k : ℕ) :
    fallbackRerank docs k = (docs.take k).map passthroughResult := rfl

lemma pass_sorted {docs : List Doc}
    (h : docs.Pairwise (fun a b => b.similarity ≤ a.similarity)) :
    (docs.map passthroughResult).Pairwise (fun a b => byRerankDesc a b = true) := by
  rw [List.pairwise_map]
  refine h.imp ?_
  intro a b hab
  simpa [byRerankDesc, passthroughResult] using hab

/-- C1 (amended): if all rerank models are unavailable AND the keyword
booster is disabled AND the candidates arrive sorted by non-increasing
original score, then for every strategy the output is the first
min(top_k, n) candidates in input order, each with rerank_score equal to
its original_score.  (The amendment is forced: the final sort by
rerank_score reorders any not-already-sorted input, and the keyword
booster — which is not a rerank model and stays active by default —
rescales scores, see the counterexample.) -/
theorem degradation_passthrough (strat : Strategy) (query : String)
    (docs : List Doc) (topK : ℕ)
    (hs : docs.Pairwise (fun a b => b.similarity ≤ a.similarity)) :
    rerank mNothing strat query docs topK = (docs.take topK).map passthroughResult := by
  have hfull : (docs.map passthroughResult).Pairwise (fun a b => byRerankDesc a b = true) :=
    pass_sorted hs
  have htake : ∀ k : ℕ,
      ((docs.take k).map passthroughResult).Pairwise (fun a b => byRerankDesc a b = true) := by
    intro k
    rw [List.map_take]
    exact hfull.take
  have hms : ∀ k : ℕ,
      stableSortBy byRerankDesc ((docs.take k).map passthroughResult)
        = (docs.take k).map passthroughResult :=
    fun k => stableSortBy_of_sorted byRerankDesc (htake k)
  have hlen : ∀ k : ℕ, ((docs.take k).map passthroughResult).take k
      = (docs.take k).map passthroughResult := by
    intro k
    apply List.take_of_length_le
    simp [List.length_take]
  by_cases hd : docs.isEmpty
  · rw [List.isEmpty_iff] at hd
    subst hd
    cases strat <;> simp [rerank]
  · cases strat
    · -- speed: fallback, no boost, sort (already sorted), truncate
      unfold rerank
      rw [if_neg hd]
      show (stableSortBy byRerankDesc (fallbackRerank docs topK)).take topK
          = (docs.take topK).map passthroughResult
      rw [fallbackRerank_eq, hms, hlen]
    · -- balanced: fallback over 2*top_k, no cross-encoder, no keywords,
      -- ensemble scoring falls back to original_score, sort, truncate
      unfold rerank
      rw [if_neg hd]
      show (stableSortBy byRerankDesc
              (((docs.take (topK * 2)).map passthroughResult).map
                (fun r => { r with rerank_score := balancedCombine r }))).take topK
          = (docs.take topK).map passthroughResult
      have hid : ((docs.take (topK * 2)).map passthroughResult).map
          (fun r => { r with rerank_score := balancedCombine r })
          = (docs.take (topK * 2)).map passthroughResult := by
        rw [List.map_map]
        rfl
      rw [hid, hms]
      rw [List.map_take, List.map_take, List.take_take]
      congr 1
      omega
    · -- accurate: fallback over 2*top_k, no boost, sort, truncate
      unfold rerank
      rw [if_neg hd]
      show (stableSortBy byRerankDesc
              ((docs.take (topK * 2)).map passthroughResult)).take topK
          = (docs.take topK).map passthroughResult
      rw [hms]
      rw [List.map_take, List.map_take, List.take_take]
      congr 1
      omega
    · -- ensemble: all candidates, no signals, ensemble scoring falls back
      -- to original_score, sort, truncate
      unfold rerank
      rw [if_neg hd]
      show (stableSortBy byRerankDesc
              ((docs.map (fun d =>
                ({ chunk_id := d.chunk_id, content := d.content,
                   original_score := d.similarity, rerank_score := 0,
                   metadata := d.metadata } : RerankResult))).map
                (fun r => { r with rerank_score := ensembleCombine r }))).take topK
          = (docs.take topK).map passthroughResult
      have hid : (docs.map (fun d =>
              ({ chunk_id := d.chunk_id, content := d.content,
                 original_score := d.similarity, rerank_score := 0,
                 metadata := d.metadata } : RerankResult))).map
              (fun r => { r with rerank_score := ensembleCombine r })
          = docs.map passthroughResult := by
        rw [List.map_map]
        rfl
      rw [hid, stableSortBy_of_sorted byRerankDesc hfull, List.map_take]

/-- Witness for the amended C1 at a concrete sorted input. -/
theorem degradation_passthrough_witness :
    (c1docs.reverse.Pairwise (fun a b => b.similarity ≤ a.similarity))
      ∧ rerank mNothing Strategy.speed "x" c1docs.reverse 1
          = (c1docs.reverse.take 1).map passthroughResult :=
  ⟨by decide, degradation_passthrough Strategy.speed "x" c1docs.reverse 1 (by decide)⟩

/-! ## C3, C4, C10: the strategy combination formulas -/

/-- Claim-side formula of C4 (balanced): weighted sum with weights 0.4 /
0.4 / 0.2, each term included only when that scorer produced a (truthy)
value, weights NOT renormalized, falling back to original_score when no
term is included. -/
def balancedClaimScore (r : RerankResult) : ℚ :=
  if truthy r.flashrank_score || truthy r.cross_encoder_score || truthy r.keyword_score then
    (if truthy r.flashrank_score then r.flashrank_score.getD 0 * (0.4 : ℚ) else 0)
      + (if truthy r.cross_encoder_score then r.cross_encoder_score.getD 0 * (0.4 : ℚ) else 0)
      + (if truthy r.keyword_score then r.keyword_score.getD 0 * (0.2 : ℚ) else 0)
  else r.original_score

/-- Claim-side formula of C3 (ensemble): weighted average with weights
flashrank 0.25, mxbai 0.40, cross-encoder 0.25, keyword 0.10, divided by
the sum of the weights of the signals actually present, falling back to
original_score when no signal is present. -/
def ensembleClaimScore (r : RerankResult) : ℚ :=
  if truthy r.flashrank_score || truthy r.mxbai_score
      || truthy r.cross_encoder_score || truthy r.keyword_score then
    ((if truthy r.flashrank_score then r.flashrank_score.getD 0 * (0.25 : ℚ) else 0)
      + (if truthy r.mxbai_score then r.mxbai_score.getD 0 * (0.40 : ℚ) else 0)
      + (if truthy r.cross_encoder_score then r.cross_encoder_score.getD 0 * (0.25 : ℚ) else 0)
      + (if truthy r.keyword_score then r.keyword_score.getD 0 * (0.10 : ℚ) else 0))
    / ((if truthy r.flashrank_score then (0.25 : ℚ) else 0)
      + (if truthy r.mxbai_score then (0.40 : ℚ) else 0)
      + (if truthy r.cross_encoder_score then (0.25 : ℚ) else 0)
      + (if truthy r.keyword_score then (0.10 : ℚ) else 0))
  else r.original_score

lemma balancedCombine_eq_claim (r : RerankResult) :
    balancedCombine r = balancedClaimScore r := by
  unfold balancedCombine balancedClaimScore
  cases hf : truthy r.flashrank_score <;> cases hc : truthy r.cross_encoder_score <;>
    cases hk : truthy r.keyword_score <;> simp [hf, hc, hk] <;> ring

lemma ensembleCombine_eq_claim (r : RerankResult) :
    ensembleCombine r = ensembleClaimScore r := by
  unfold ensembleCombine ensembleClaimScore
  cases hf : truthy r.flashrank_score <;> cases hm : truthy r.mxbai_score <;>
    cases hc : truthy r.cross_encoder_score <;> cases hk : truthy r.keyword_score <;>
    simp [hf, hm, hc, hk] <;> ring_nf

/-- C4: in the balanced strategy every returned candidate's rerank_score
is the non-renormalized weighted sum flashrank*0.4 + cross_encoder*0.4 +
keyword*0.2 over the scorers that produced a (truthy) value, with
fallback to original_score when none did — so rerank_score is always
populated. -/
theorem balanced_weighted_sum (m : Models) (query : String) (docs : List Doc)
    (topK : ℕ) (r : RerankResult) (hr : r ∈ balancedRerank m query docs topK) :
    r.rerank_score = balancedClaimScore r := by
  simp only [balancedRerank] at hr
  have h1 := List.mem_of_mem_take hr
  have h2 := (stableSortBy_perm byRerankDesc _).mem_iff.1 h1
  rcases List.mem_map.1 h2 with ⟨r₀, hr₀, rfl⟩
  show balancedCombine r₀ = balancedClaimScore r₀
  exact balancedCombine_eq_claim r₀

/-- Witness for C4 at a concrete input. -/
theorem balanced_weighted_sum_witness :
    (⟨"w4", "c", 3, 3, none, none, none, none, []⟩ : RerankResult)
        ∈ balancedRerank mNothing "q" [{ chunk_id := "w4", content := "c", similarity := 3 }] 1
      ∧ (⟨"w4", "c", 3, 3, none, none, none, none, []⟩ : RerankResult).rerank_score
        = balancedClaimScore ⟨"w4", "c", 3, 3, none, none, none, none, []⟩ :=
  ⟨by decide, balanced_weighted_sum mNothing "q"
    [{ chunk_id := "w4", content := "c", similarity := 3 }] 1 _ (by decide)⟩

/-- C3: in the ensemble strategy every returned candidate's rerank_score
is the weighted average of the (truthy) per-signal scores, renormalized by
the sum of the weights of the signals present, with fallback to
original_score when no signal is present. -/
theorem ensemble_weighted_average (m : Models) (query : String) (docs : List Doc)
    (topK : ℕ) (r : RerankResult) (hr : r ∈ ensembleRerank m query docs topK) :
    r.rerank_score = ensembleClaimScore r := by
  simp only [ensembleRerank] at hr
  have h1 := List.mem_of_mem_take hr
  have h2 := (stableSortBy_perm byRerankDesc _).mem_iff.1 h1
  rcases List.mem_map.1 h2 with ⟨r₀, hr₀, rfl⟩
  show ensembleCombine r₀ = ensembleClaimScore r₀
  exact ensembleCombine_eq_claim r₀

/-- Witness for C3 at a concrete input. -/
theorem ensemble_weighted_average_witness :
    (⟨"w3", "c", 3, 3, none, none, none, none, []⟩ : RerankResult)
        ∈ ensembleRerank mNothing "q" [{ chunk_id := "w3", content := "c", similarity := 3 }] 1
      ∧ (⟨"w3", "c", 3, 3, none, none, none, none, []⟩ : RerankResult).rerank_score
        = ensembleClaimScore ⟨"w3", "c", 3, 3, none, none, none, none, []⟩ :=
  ⟨by decide, ensemble_weighted_average mNothing "q"
    [{ chunk_id := "w3", content := "c", similarity := 3 }] 1 _ (by decide)⟩

/-- C10: in both the balanced and the ensemble combination, a per-signal
score of exactly 0.0 behaves identically to a missing score (it
contributes no term and, in ensemble, its weight is excluded from the
denominator), and a candidate whose signals are all missing-or-zero gets
rerank_score = original_score. -/
theorem zero_score_is_missing (r : RerankResult) :
    balancedCombine { r with flashrank_score := some 0 }
        = balancedCombine { r with flashrank_score := none }
    ∧ balancedCombine { r with cross_encoder_score := some 0 }
        = balancedCombine { r with cross_encoder_score := none }
    ∧ balancedCombine { r with keyword_score := some 0 }
        = balancedCombine { r with keyword_score := none }
    ∧ ensembleCombine { r with flashrank_score := some 0 }
        = ensembleCombine { r with flashrank_score := none }
    ∧ ensembleCombine { r with mxbai_score := some 0 }
        = ensembleCombine { r with mxbai_score := none }
    ∧ ensembleCombine { r with cross_encoder_score := some 0 }
        = ensembleCombine { r with cross_encoder_score := none }
    ∧ ensembleCombine { r with keyword_score := some 0 }
        = ensembleCombine { r with keyword_score := none }
    ∧ ((truthy r.flashrank_score = false ∧ truthy r.mxbai_score = false
        ∧ truthy r.cross_encoder_score = false ∧ truthy r.keyword_score = false)
        → balancedCombine r = r.original_score ∧ ensembleCombine r = r.original_score) := by
  refine ⟨rfl, rfl, rfl, rfl, rfl, rfl, rfl, ?_⟩
  rintro ⟨h1, h2, h3, h4⟩
  constructor
  · simp [balancedCombine, h1, h3, h4]
  · simp [ensembleCombine, h1, h2, h3, h4]

/-- Witness for C10 at a record whose four signals are all present but
zero. -/
theorem zero_score_is_missing_witness :
    balancedCombine ⟨"z", "c", 7, 0, some 0, some 0, some 0, some 0, []⟩
        = (⟨"z", "c", 7, 0, some 0, some 0, some 0, some 0, []⟩ : RerankResult).original_score
      ∧ ensembleCombine ⟨"z", "c", 7, 0, some 0, some 0, some 0, some 0, []⟩
        = (⟨"z", "c", 7, 0, some 0, some 0, some 0, some 0, []⟩ : RerankResult).original_score :=
  (zero_score_is_missing ⟨"z", "c", 7, 0, some 0, some 0, some 0, some 0, []⟩).2.2.2.2.2.2.2
    (by decide)

/-! ## C5: ensemble per-model scoring alignment -/

/-- C5 failing input: two candidates where FlashRank prefers the second. -/
def c5docs : List Doc :=
  [{ chunk_id := "d1", content := "alpha", similarity := 1/2 },
   { chunk_id := "d2", content := "beta", similarity := 1/2 }]

/-- The FlashRank oracle for the C5 failing input: score 5 for content
"beta", score 1 otherwise. -/
def c5score : String → String → ℚ := fun _ c => if c = "beta" then 5 else 1

/-- An ensemble reranker where only FlashRank is available. -/
def c5models : Models :=
  { flashrank := some c5score, mxbai := none, crossEncoder := none, keywordBoost := false }

/-- C5 evaluated at the failing input: FlashRank scores d1's content
"alpha" as 1 and d2's content "beta" as 5, yet the ensemble output record
for d1 carries flashrank_score 5 and the record for d2 carries 1 — the
Python loop zips the FlashRank-sorted list positionally onto the
original-order candidates, so each candidate records the score of the
candidate at the same *rank*, not its own. -/
theorem ensemble_flashrank_misaligned :
    (ensembleRerank c5models "q" c5docs 2).map
        (fun r => (r.chunk_id, r.flashrank_score)) = [("d1", some 5), ("d2", some 1)]
      ∧ c5score "q" "alpha" = 1 ∧ c5score "q" "beta" = 5 := by
  decide

/-! ## Reciprocal rank fusion (`ReciprocalRankFusion.fuse` in
hybrid_retriever.py)

`fuse` walks the three retriever result lists in order (dense, then BM25,
then ColBERT), 1-indexed by rank.  Each document seen for the first time
creates a record in the `all_docs` dict (keyed and merged by chunk_id,
insertion-ordered, which a Lean association list models exactly); a
document already present gets its retriever-specific score/rank fields
updated (except in the dense pass, which has no else-branch for them).
In both cases `weight * (1 / (k + rank))` is added to the record's
rrf_score.  Finally the records are sorted by rrf_score descending
(Python `sorted` is stable). -/

/-- A retriever result dict as consumed by `fuse`: chunk_id, content,
metadata, plus the one retriever-specific score this retriever attached
(`similarity`, `bm25_score` or `colbert_score`; `doc.get(..., 0.0)` makes
a missing score 0). -/
structure RetDoc where
  chunk_id : String
  content : String
  score : ℚ := 0
  metadata : List (String × String) := []
deriving DecidableEq

/-- A fused record of `fuse`'s `all_docs` dict. -/
structure FusedResult where
  chunk_id : String
  content : String
  metadata : List (String × String)
  rrf_score : ℚ
  dense_score : ℚ
  bm25_score : ℚ
  colbert_score : ℚ
  dense_rank : Option ℕ
  bm25_rank : Option ℕ
  colbert_rank : Option ℕ
deriving DecidableEq

/-- The fusion weights dict; `fuse` defaults to dense 0.4, bm25 0.3,
colbert 0.3 when none are supplied. -/
structure FusionWeights where
  dense : ℚ
  bm25 : ℚ
  colbert : ℚ

/-- The default weights of `fuse`. -/
def defaultFusionWeights : FusionWeights :=
  { dense := 0.4, bm25 := 0.3, colbert := 0.3 }

/-- Is a chunk_id already present in the accumulated record list
(`chunk_id not in all_docs` test)? -/
def hasKey (acc : List FusedResult) (cid : String) : Bool :=
  acc.any (fun f => decide (f.chunk_id = cid))

/-- `all_docs[chunk_id] = ...` on an insertion-ordered association list:
apply an update to every record keyed by the given id (with key
uniqueness, to the one such record). -/
def applyToKey (tid : String) (g : FusedResult → FusedResult)
    (acc : List FusedResult) : List FusedResult :=
  acc.map (fun f => if f.chunk_id = tid then g f else f)

/-- One loop iteration of a retriever pass of `fuse`, generic in the
record creation (`mkNew`, the first-sighting dict literal) and the
already-present update (`upd`, the else-branch): create or update the
record for the document's chunk_id, then add `w * (1 / (k + rank))` to
that record's rrf_score. -/
def rrfStep (w : ℚ) (k : ℕ) (mkNew : RetDoc → ℕ → FusedResult)
    (upd : FusedResult → RetDoc → ℕ → FusedResult)
    (acc : List FusedResult) (rank : ℕ) (doc : RetDoc) : List FusedResult :=
  let acc' :=
    if hasKey acc doc.chunk_id then
      applyToKey doc.chunk_id (fun f => upd f doc rank) acc
    else acc ++ [mkNew doc rank]
  applyToKey doc.chunk_id
    (fun f => { f with rrf_score := f.rrf_score + w * (1 / ((k : ℚ) + (rank : ℚ))) }) acc'

/-- One full retriever pass of `fuse` (`for rank, doc in
enumerate(results, 1)` — `rank` starts at the given start value, 1 at the
call sites). -/
def rrfPass (w : ℚ) (k : ℕ) (mkNew : RetDoc → ℕ → FusedResult)
    (upd : FusedResult → RetDoc → ℕ → FusedResult) :
    List FusedResult → ℕ → List RetDoc → List FusedResult
  | acc, _, [] => acc
  | acc, rank, d :: ds =>
    rrfPass w k mkNew upd (rrfStep w k mkNew upd acc rank d) (rank + 1) ds

/-- First-sighting record of the dense pass. -/
def denseNew (d : RetDoc) (rank : ℕ) : FusedResult :=
  { chunk_id := d.chunk_id, content := d.content, metadata := d.metadata,
    rrf_score := 0, dense_score := d.score, bm25_score := 0, colbert_score := 0,
    dense_rank := some rank, bm25_rank := none, colbert_rank := none }

/-- The dense pass has no else-branch: an already-present record is left
untouched (apart from the rrf_score addition). -/
def denseUpd (f : FusedResult) (_ : RetDoc) (_ : ℕ) : FusedResult := f

/-- First-sighting record of the BM25 pass. -/
def bm25New (d : RetDoc) (rank : ℕ) : FusedResult :=
  { chunk_id := d.chunk_id, content := d.content, metadata := d.metadata,
    rrf_score := 0, dense_score := 0, bm25_score := d.score, colbert_score := 0,
    dense_rank := none, bm25_rank := some rank, colbert_rank := none }

/-- Else-branch of the BM25 pass: update bm25_score and bm25_rank. -/
def bm25Upd (f : FusedResult) (d : RetDoc) (rank : ℕ) : FusedResult :=
  { f with bm25_score := d.score, bm25_rank := some rank }

/-- First-sighting record of the ColBERT pass. -/
def colbertNew (d : RetDoc) (rank : ℕ) : FusedResult :=
  { chunk_id := d.chunk_id, content := d.content, metadata := d.metadata,
    rrf_score := 0, dense_score := 0, bm25_score := 0, colbert_score := d.score,
    dense_rank := none, bm25_rank := none, colbert_rank := some rank }

/-- Else-branch of the ColBERT pass: update colbert_score and
colbert_rank. -/
def colbertUpd (f : FusedResult) (d : RetDoc) (rank : ℕ) : FusedResult :=
  { f with colbert_score := d.score, colbert_rank := some rank }

/-- Descending stable comparison on rrf_score (Python
`sorted(..., key=lambda x: x['rrf_score'], reverse=True)`). -/
def byRrfDesc (a b : FusedResult) : Bool :=
  decide (b.rrf_score ≤ a.rrf_score)

/-- `ReciprocalRankFusion.fuse` (the RRF constant k is 60 at
construction). -/
def fuse (k : ℕ) (w : FusionWeights) (dense bm25 colbert : List RetDoc) :
    List FusedResult :=
  let acc := rrfPass w.dense k denseNew denseUpd [] 1 dense
  let acc := rrfPass w.bm25 k bm25New bm25Upd acc 1 bm25
  let acc := rrfPass w.colbert k colbertNew colbertUpd acc 1 colbert
  stableSortBy byRrfDesc acc

/-- Total rrf_score carried by records with the given chunk_id (with the
key-uniqueness invariant there is at most one such record, and the sum is
insensitive to the final sort). -/
def rrfScoreOf (l : List FusedResult) (cid : String) : ℚ :=
  (l.map (fun f => if f.chunk_id = cid then f.rrf_score else 0)).sum

/-- Number of records keyed by the given chunk_id. -/
def keyCountF (acc : List FusedResult) (cid : String) : ℕ :=
  acc.countP (fun f => decide (f.chunk_id = cid))

/-- Key uniqueness: at most one record per chunk_id. -/
def KeyUnique (acc : List FusedResult) : Prop :=
  ∀ cid, keyCountF acc cid ≤ 1

/-- Number of documents with the given chunk_id in a retriever list. -/
def keyCount (l : List RetDoc) (cid : String) : ℕ :=
  l.countP (fun d => decide (d.chunk_id = cid))

/-- Sum of the reciprocal-rank contributions 1/(k + rank) collected by a
chunk_id over one retriever list, ranks counted from the given start. -/
def posSum (k : ℕ) (cid : String) : ℕ → List RetDoc → ℚ
  | _, [] => 0
  | rank, d :: ds =>
    (if d.chunk_id = cid then (1 : ℚ) / ((k : ℚ) + (rank : ℚ)) else 0)
      + posSum k cid (rank + 1) ds

/-- 1-indexed rank of the first document with the given chunk_id in a
retriever list (none if absent), counting from the given start. -/
def rankIn : List RetDoc → String → ℕ → Option ℕ
  | [], _, _ => none
  | d :: ds, cid, r => if d.chunk_id = cid then some r else rankIn ds cid (r + 1)

/-! ### Invariants of the fusion passes -/

lemma rrfScoreOf_cons (f : FusedResult) (l : List FusedResult) (cid : String) :
    rrfScoreOf (f :: l) cid
      = (if f.chunk_id = cid then f.rrf_score else 0) + rrfScoreOf l cid := by
  simp [rrfScoreOf]

lemma rrfScoreOf_append_singleton (l : List FusedResult) (x : FusedResult)
    (cid : String) :
    rrfScoreOf (l ++ [x]) cid
      = rrfScoreOf l cid + (if x.chunk_id = cid then x.rrf_score else 0) := by
  simp [rrfScoreOf]

lemma rrfScoreOf_applyToKey_preserve (tid : String) (g : FusedResult → FusedResult)
    (hid : ∀ f, (g f).chunk_id = f.chunk_id)
    (hsc : ∀ f, (g f).rrf_score = f.rrf_score)
    (acc : List FusedResult) (cid : String) :
    rrfScoreOf (applyToKey tid g acc) cid = rrfScoreOf acc cid := by
  unfold rrfScoreOf applyToKey
  rw [List.map_map]
  refine congrArg List.sum ?_
  refine List.map_congr_left ?_
  intro f _
  by_cases h : f.chunk_id = tid <;> simp [h, hid, hsc]

lemma keyCountF_applyToKey (tid : String) (g : FusedResult → FusedResult)
    (hid : ∀ f, (g f).chunk_id = f.chunk_id)
    (acc : List FusedResult) (cid : String) :
    keyCountF (applyToKey tid g acc) cid = keyCountF acc cid := by
  unfold keyCountF applyToKey
  rw [List.countP_map]
  refine List.countP_congr ?_
  intro f _
  by_cases h : f.chunk_id = tid <;> simp [h, hid]

lemma hasKey_applyToKey (tid : String) (g : FusedResult → FusedResult)
    (hid : ∀ f, (g f).chunk_id = f.chunk_id)
    (acc : List FusedResult) (cid : String) :
    hasKey (applyToKey tid g acc) cid = hasKey acc cid := by
  unfold hasKey applyToKey
  rw [List.any_map]
  have hfun : ((fun f : FusedResult => decide (f.chunk_id = cid))
        ∘ (fun f => if f.chunk_id = tid then g f else f))
      = fun f : FusedResult => decide (f.chunk_id = cid) := by
    funext f
    by_cases h : f.chunk_id = tid <;> simp [h, hid]
  rw [hfun]

lemma rrfScoreOf_applyToKey_add (tid : String) (δ : ℚ)
    (acc : List FusedResult) (cid : String) :
    rrfScoreOf (applyToKey tid (fun f => { f with rrf_score := f.rrf_score + δ }) acc) cid
      = rrfScoreOf acc cid + (if tid = cid then (keyCountF acc tid : ℚ) * δ else 0) := by
  induction acc with
  | nil =>
    simp [applyToKey, rrfScoreOf, keyCountF]
  | cons f fs ih =>
    have hcons : applyToKey tid (fun f => { f with rrf_score := f.rrf_score + δ }) (f :: fs)
        = (if f.chunk_id = tid then { f with rrf_score := f.rrf_score + δ } else f)
          :: applyToKey tid (fun f => { f with rrf_score := f.rrf_score + δ }) fs := rfl
    rw [hcons, rrfScoreOf_cons, ih, rrfScoreOf_cons]
    have hcount : keyCountF (f :: fs) tid
        = keyCountF fs tid + (if f.chunk_id = tid then 1 else 0) := by
      unfold keyCountF
      rw [List.countP_cons]
      by_cases h : f.chunk_id = tid <;> simp [h]
    rw [hcount]
    by_cases h1 : f.chunk_id = tid
    · by_cases h2 : tid = cid
      · have hfc : f.chunk_id = cid := h1.trans h2
        simp only [h1, h2, hfc, if_true, if_pos]
        push_cast
        ring
      · have hfc : ¬ f.chunk_id = cid := fun hh => h2 (h1.symm.trans hh)
        simp only [h1, h2, hfc, if_true, if_false, if_neg, ite_true, ite_false]
        ring
    · by_cases h2 : tid = cid
      · have hfc : ¬ f.chunk_id = cid := fun hh => h1 (hh.trans h2.symm)
        simp only [h1, h2, hfc, if_true, if_false, ite_true, ite_false]
        try push_cast
        try ring
      · simp only [h1, h2, if_false, ite_false]
        try ring

lemma hasKey_iff_pos (acc : List FusedResult) (cid : String) :
    hasKey acc cid = true ↔ 0 < keyCountF acc cid := by
  unfold hasKey keyCountF
  rw [List.any_eq_true, List.countP_pos_iff]
  try simp

lemma keyCountF_of_not_hasKey (acc : List FusedResult) (cid : String)
    (h : hasKey acc cid = false) : keyCountF acc cid = 0 := by
  by_contra hne
  have hpos : 0 < keyCountF acc cid := Nat.pos_of_ne_zero hne
  rw [← hasKey_iff_pos] at hpos
  rw [h] at hpos
  cases hpos

lemma keyCountF_append_singleton (acc : List FusedResult) (x : FusedResult)
    (cid : String) :
    keyCountF (acc ++ [x]) cid
      = keyCountF acc cid + (if x.chunk_id = cid then 1 else 0) := by
  unfold keyCountF
  rw [List.countP_append]
  by_cases h : x.chunk_id = cid <;> simp [h]

lemma hasKey_append_singleton (acc : List FusedResult) (x : FusedResult)
    (cid : String) :
    hasKey (acc ++ [x]) cid = (hasKey acc cid || decide (x.chunk_id = cid)) := by
  unfold hasKey
  simp

lemma keyCountF_applyAdd (tid : String) (δ : ℚ) (acc : List FusedResult)
    (cid : String) :
    keyCountF (applyToKey tid (fun f => { f with rrf_score := f.rrf_score + δ }) acc) cid
      = keyCountF acc cid :=
  keyCountF_applyToKey tid (fun f => { f with rrf_score := f.rrf_score + δ })
    (fun _ => rfl) acc cid

lemma hasKey_applyAdd (tid : String) (δ : ℚ) (acc : List FusedResult)
    (cid : String) :
    hasKey (applyToKey tid (fun f => { f with rrf_score := f.rrf_score + δ }) acc) cid
      = hasKey acc cid :=
  hasKey_applyToKey tid (fun f => { f with rrf_score := f.rrf_score + δ })
    (fun _ => rfl) acc cid

lemma keyCountF_rrfStep (w : ℚ) (k : ℕ) (mkNew : RetDoc → ℕ → FusedResult)
    (upd : FusedResult → RetDoc → ℕ → FusedResult)
    (hupdid : ∀ f d r, (upd f d r).chunk_id = f.chunk_id)
    (hnewid : ∀ d r, (mkNew d r).chunk_id = d.chunk_id)
    (acc : List FusedResult) (rank : ℕ) (doc : RetDoc) (cid : String) :
    keyCountF (rrfStep w k mkNew upd acc rank doc) cid
      = keyCountF acc cid
        + (if hasKey acc doc.chunk_id then 0 else if doc.chunk_id = cid then 1 else 0) := by
  simp only [rrfStep]
  by_cases hk : hasKey acc doc.chunk_id
  · rw [if_pos hk, if_pos hk]
    rw [keyCountF_applyAdd,
      keyCountF_applyToKey _ _ (fun f => hupdid f doc rank)]
    omega
  · rw [if_neg hk, if_neg hk]
    rw [keyCountF_applyAdd, keyCountF_append_singleton]
    simp only [hnewid]

lemma hasKey_rrfStep (w : ℚ) (k : ℕ) (mkNew : RetDoc → ℕ → FusedResult)
    (upd : FusedResult → RetDoc → ℕ → FusedResult)
    (hupdid : ∀ f d r, (upd f d r).chunk_id = f.chunk_id)
    (hnewid : ∀ d r, (mkNew d r).chunk_id = d.chunk_id)
    (acc : List FusedResult) (rank : ℕ) (doc : RetDoc) (cid : String) :
    hasKey (rrfStep w k mkNew upd acc rank doc) cid = true
      ↔ hasKey acc cid = true ∨ doc.chunk_id = cid := by
  simp only [rrfStep]
  by_cases hk : hasKey acc doc.chunk_id
  · rw [if_pos hk]
    rw [hasKey_applyAdd,
      hasKey_applyToKey _ _ (fun f => hupdid f doc rank)]
    constructor
    · exact Or.inl
    · rintro (h | h)
      · exact h
      · rw [h] at hk
        exact hk
  · rw [if_neg hk]
    rw [hasKey_applyAdd, hasKey_append_singleton]
    simp [hnewid]

lemma keyUnique_rrfStep (w : ℚ) (k : ℕ) (mkNew : RetDoc → ℕ → FusedResult)
    (upd : FusedResult → RetDoc → ℕ → FusedResult)
    (hupdid : ∀ f d r, (upd f d r).chunk_id = f.chunk_id)
    (hnewid : ∀ d r, (mkNew d r).chunk_id = d.chunk_id)
    (acc : List FusedResult) (rank : ℕ) (doc : RetDoc)
    (hu : KeyUnique acc) : KeyUnique (rrfStep w k mkNew upd acc rank doc) := by
  intro cid
  rw [keyCountF_rrfStep w k mkNew upd hupdid hnewid acc rank doc cid]
  by_cases hk : hasKey acc doc.chunk_id
  · simpa [hk] using hu cid
  · by_cases hc : doc.chunk_id = cid
    · have h0 : keyCountF acc cid = 0 := by
        rw [← hc]
        refine keyCountF_of_not_hasKey _ _ ?_
        simpa using hk
      rw [if_neg hk, if_pos hc, h0]
    · rw [if_neg hk, if_neg hc]
      simpa using hu cid

lemma rrfScoreOf_rrfStep (w : ℚ) (k : ℕ) (mkNew : RetDoc → ℕ → FusedResult)
    (upd : FusedResult → RetDoc → ℕ → FusedResult)
    (hupdid : ∀ f d r, (upd f d r).chunk_id = f.chunk_id)
    (hupdsc : ∀ f d r, (upd f d r).rrf_score = f.rrf_score)
    (hnewid : ∀ d r, (mkNew d r).chunk_id = d.chunk_id)
    (hnewsc : ∀ d r, (mkNew d r).rrf_score = 0)
    (acc : List FusedResult) (rank : ℕ) (doc : RetDoc) (cid : String)
    (hu : KeyUnique acc) :
    rrfScoreOf (rrfStep w k mkNew upd acc rank doc) cid
      = rrfScoreOf acc cid
        + (if doc.chunk_id = cid then w * (1 / ((k : ℚ) + (rank : ℚ))) else 0) := by
  simp only [rrfStep]
  by_cases hk : hasKey acc doc.chunk_id
  · rw [if_pos hk]
    rw [rrfScoreOf_applyToKey_add,
      rrfScoreOf_applyToKey_preserve _ _ (fun f => hupdid f doc rank)
        (fun f => hupdsc f doc rank),
      keyCountF_applyToKey _ _ (fun f => hupdid f doc rank)]
    have h1 : keyCountF acc doc.chunk_id = 1 := by
      have hpos := (hasKey_iff_pos acc doc.chunk_id).1 hk
      have hle := hu doc.chunk_id
      omega
    rw [h1]
    by_cases hc : doc.chunk_id = cid
    · rw [if_pos hc, if_pos hc]
      push_cast
      ring
    · rw [if_neg hc, if_neg hc]
  · rw [if_neg hk]
    have h0 : keyCountF acc doc.chunk_id = 0 := by
      refine keyCountF_of_not_hasKey _ _ ?_
      simpa using hk
    rw [rrfScoreOf_applyToKey_add, rrfScoreOf_append_singleton,
      keyCountF_append_singleton, h0]
    simp only [hnewid, hnewsc]
    by_cases hc : doc.chunk_id = cid
    · rw [if_pos hc, if_pos hc, if_pos hc]
      push_cast
      ring
    · rw [if_neg hc, if_neg hc, if_neg hc]
      ring

lemma keyUnique_rrfPass (w : ℚ) (k : ℕ) (mkNew : RetDoc → ℕ → FusedResult)
    (upd : FusedResult → RetDoc → ℕ → FusedResult)
    (hupdid : ∀ f d r, (upd f d r).chunk_id = f.chunk_id)
    (hnewid : ∀ d r, (mkNew d r).chunk_id = d.chunk_id)
    (docs : List RetDoc) :
    ∀ (acc : List FusedResult) (rank : ℕ), KeyUnique acc →
      KeyUnique (rrfPass w k mkNew upd acc rank docs) := by
  induction docs with
  | nil =>
    intro acc rank hu
    exact hu
  | cons d ds ih =>
    intro acc rank hu
    exact ih _ _ (keyUnique_rrfStep w k mkNew upd hupdid hnewid acc rank d hu)

lemma rrfScoreOf_rrfPass (w : ℚ) (k : ℕ) (mkNew : RetDoc → ℕ → FusedResult)
    (upd : FusedResult → RetDoc → ℕ → FusedResult)
    (hupdid : ∀ f d r, (upd f d r).chunk_id = f.chunk_id)
    (hupdsc : ∀ f d r, (upd f d r).rrf_score = f.rrf_score)
    (hnewid : ∀ d r, (mkNew d r).chunk_id = d.chunk_id)
    (hnewsc : ∀ d r, (mkNew d r).rrf_score = 0)
    (docs : List RetDoc) :
    ∀ (acc : List FusedResult) (rank : ℕ), KeyUnique acc → ∀ cid,
      rrfScoreOf (rrfPass w k mkNew upd acc rank docs) cid
        = rrfScoreOf acc cid + w * posSum k cid rank docs := by
  induction docs with
  | nil =>
    intro acc rank hu cid
    show rrfScoreOf acc cid = rrfScoreOf acc cid + w * posSum k cid rank []
    simp [posSum]
  | cons d ds ih =>
    intro acc rank hu cid
    show rrfScoreOf (rrfPass w k mkNew upd (rrfStep w k mkNew upd acc rank d) (rank + 1) ds) cid
        = rrfScoreOf acc cid + w * posSum k cid rank (d :: ds)
    rw [ih _ _ (keyUnique_rrfStep w k mkNew upd hupdid hnewid acc rank d hu) cid]
    rw [rrfScoreOf_rrfStep w k mkNew upd hupdid hupdsc hnewid hnewsc acc rank d cid hu]
    show _ = rrfScoreOf acc cid
        + w * ((if d.chunk_id = cid then (1 : ℚ) / ((k : ℚ) + (rank : ℚ)) else 0)
          + posSum k cid (rank + 1) ds)
    by_cases hc : d.chunk_id = cid <;> simp [hc] <;> ring

lemma hasKey_rrfPass (w : ℚ) (k : ℕ) (mkNew : RetDoc → ℕ → FusedResult)
    (upd : FusedResult → RetDoc → ℕ → FusedResult)
    (hupdid : ∀ f d r, (upd f d r).chunk_id = f.chunk_id)
    (hnewid : ∀ d r, (mkNew d r).chunk_id = d.chunk_id)
    (docs : List RetDoc) :
    ∀ (acc : List FusedResult) (rank : ℕ) (cid : String),
      (hasKey (rrfPass w k mkNew upd acc rank docs) cid = true
        ↔ hasKey acc cid = true ∨ cid ∈ docs.map RetDoc.chunk_id) := by
  induction docs with
  | nil =>
    intro acc rank cid
    show hasKey acc cid = true
        ↔ hasKey acc cid = true ∨ cid ∈ ([] : List RetDoc).map RetDoc.chunk_id
    simp
  | cons d ds ih =>
    intro acc rank cid
    show hasKey (rrfPass w k mkNew upd (rrfStep w k mkNew upd acc rank d) (rank + 1) ds) cid
          = true ↔ _
    rw [ih]
    rw [hasKey_rrfStep w k mkNew upd hupdid hnewid acc rank d cid]
    simp only [List.map_cons, List.mem_cons, or_assoc]
    constructor
    · rintro (h | h | h)
      · exact Or.inl h
      · exact Or.inr (Or.inl h.symm)
      · exact Or.inr (Or.inr h)
    · rintro (h | h | h)
      · exact Or.inl h
      · exact Or.inr (Or.inl h.symm)
      · exact Or.inr (Or.inr h)

/-- The `all_docs` association list built by `fuse` before the final
sort. -/
def fuseAcc (k : ℕ) (w : FusionWeights) (dense bm25 colbert : List RetDoc) :
    List FusedResult :=
  rrfPass w.colbert k colbertNew colbertUpd
    (rrfPass w.bm25 k bm25New bm25Upd
      (rrfPass w.dense k denseNew denseUpd [] 1 dense) 1 bm25) 1 colbert

lemma fuse_eq_sort_fuseAcc (k : ℕ) (w : FusionWeights)
    (dense bm25 colbert : List RetDoc) :
    fuse k w dense bm25 colbert = stableSortBy byRrfDesc (fuseAcc k w dense bm25 colbert) := rfl

lemma keyUnique_nil : KeyUnique [] := by
  intro cid
  simp [keyCountF]

lemma keyUnique_fuseAcc (k : ℕ) (w : FusionWeights)
    (dense bm25 colbert : List RetDoc) :
    KeyUnique (fuseAcc k w dense bm25 colbert) := by
  refine keyUnique_rrfPass w.colbert k colbertNew colbertUpd
    (fun f d r => rfl) (fun d r => rfl) colbert _ _ ?_
  refine keyUnique_rrfPass w.bm25 k bm25New bm25Upd
    (fun f d r => rfl) (fun d r => rfl) bm25 _ _ ?_
  exact keyUnique_rrfPass w.dense k denseNew denseUpd
    (fun f d r => rfl) (fun d r => rfl) dense _ _ keyUnique_nil

/-- The rrf_score ledger of `fuse` before sorting: each retriever
contributes its weight times the sum of reciprocal ranks at which it
listed the chunk_id. -/
lemma rrfScoreOf_fuseAcc (k : ℕ) (w : FusionWeights)
    (dense bm25 colbert : List RetDoc) (cid : String) :
    rrfScoreOf (fuseAcc k w dense bm25 colbert) cid
      = w.dense * posSum k cid 1 dense + w.bm25 * posSum k cid 1 bm25
        + w.colbert * posSum k cid 1 colbert := by
  unfold fuseAcc
  rw [rrfScoreOf_rrfPass w.colbert k colbertNew colbertUpd (fun f d r => rfl)
    (fun f d r => rfl) (fun d r => rfl) (fun d r => rfl) colbert _ _
    (keyUnique_rrfPass w.bm25 k bm25New bm25Upd (fun f d r => rfl) (fun d r => rfl) bm25 _ _
      (keyUnique_rrfPass w.dense k denseNew denseUpd (fun f d r => rfl) (fun d r => rfl)
        dense _ _ keyUnique_nil))
    cid]
  rw [rrfScoreOf_rrfPass w.bm25 k bm25New bm25Upd (fun f d r => rfl)
    (fun f d r => rfl) (fun d r => rfl) (fun d r => rfl) bm25 _ _
    (keyUnique_rrfPass w.dense k denseNew denseUpd (fun f d r => rfl) (fun d r => rfl)
      dense _ _ keyUnique_nil)
    cid]
  rw [rrfScoreOf_rrfPass w.dense k denseNew denseUpd (fun f d r => rfl)
    (fun f d r => rfl) (fun d r => rfl) (fun d r => rfl) dense _ _ keyUnique_nil cid]
  show 0 + w.dense * posSum k cid 1 dense + w.bm25 * posSum k cid 1 bm25
      + w.colbert * posSum k cid 1 colbert = _
  ring

lemma rrfScoreOf_perm {l₁ l₂ : List FusedResult} (h : List.Perm l₁ l₂)
    (cid : String) : rrfScoreOf l₁ cid = rrfScoreOf l₂ cid :=
  (h.map _).sum_eq

/-- Score characterization of `fuse`: the final sort does not change any
chunk_id's total rrf_score. -/
lemma rrfScoreOf_fuse (k : ℕ) (w : FusionWeights)
    (dense bm25 colbert : List RetDoc) (cid : String) :
    rrfScoreOf (fuse k w dense bm25 colbert) cid
      = w.dense * posSum k cid 1 dense + w.bm25 * posSum k cid 1 bm25
        + w.colbert * posSum k cid 1 colbert := by
  rw [fuse_eq_sort_fuseAcc,
    rrfScoreOf_perm (stableSortBy_perm byRrfDesc (fuseAcc k w dense bm25 colbert)) cid]
  exact rrfScoreOf_fuseAcc k w dense bm25 colbert cid

lemma mem_keys_iff_hasKey (l : List FusedResult) (cid : String) :
    cid ∈ l.map FusedResult.chunk_id ↔ hasKey l cid = true := by
  unfold hasKey
  rw [List.any_eq_true]
  simp [List.mem_map]

lemma nodup_keys_of_keyUnique :
    ∀ (l : List FusedResult), KeyUnique l → (l.map FusedResult.chunk_id).Nodup := by
  intro l
  induction l with
  | nil =>
    intro _
    simp
  | cons f fs ih =>
    intro hu
    rw [List.map_cons, List.nodup_cons]
    constructor
    · intro hmem
      rcases List.mem_map.1 hmem with ⟨g, hg, hgid⟩
      have h1 := hu f.chunk_id
      unfold keyCountF at h1
      rw [List.countP_cons] at h1
      have hpos : 0 < fs.countP (fun x => decide (x.chunk_id = f.chunk_id)) :=
        List.countP_pos_iff.2 ⟨g, hg, by simp [hgid]⟩
      have hd : decide (f.chunk_id = f.chunk_id) = true := by simp
      rw [if_pos hd] at h1
      omega
    · refine ih ?_
      intro cid
      have h1 := hu cid
      unfold keyCountF at h1 ⊢
      rw [List.countP_cons] at h1
      omega

lemma keyCountF_perm {l₁ l₂ : List FusedResult} (h : List.Perm l₁ l₂)
    (cid : String) : keyCountF l₁ cid = keyCountF l₂ cid :=
  h.countP_eq _

lemma hasKey_perm {l₁ l₂ : List FusedResult} (h : List.Perm l₁ l₂)
    (cid : String) : hasKey l₁ cid = hasKey l₂ cid := by
  cases hx : hasKey l₂ cid
  · rw [← Bool.not_eq_true] at hx ⊢
    rw [hasKey_iff_pos] at hx ⊢
    rw [keyCountF_perm h]
    exact hx
  · rw [hasKey_iff_pos] at hx ⊢
    rw [keyCountF_perm h]
    exact hx

/-- C6: the chunk_ids of a fused result are exactly the union of the
chunk_ids of the three input lists, with no duplicate record for any
id. -/
theorem fusion_completeness (k : ℕ) (w : FusionWeights)
    (dense bm25 colbert : List RetDoc) :
    ((fuse k w dense bm25 colbert).map FusedResult.chunk_id).Nodup
    ∧ ∀ cid, (cid ∈ (fuse k w dense bm25 colbert).map FusedResult.chunk_id
        ↔ cid ∈ dense.map RetDoc.chunk_id ∨ cid ∈ bm25.map RetDoc.chunk_id
          ∨ cid ∈ colbert.map RetDoc.chunk_id) := by
  have hperm : List.Perm (fuse k w dense bm25 colbert) (fuseAcc k w dense bm25 colbert) := by
    rw [fuse_eq_sort_fuseAcc]
    exact stableSortBy_perm byRrfDesc _
  constructor
  · refine nodup_keys_of_keyUnique _ ?_
    intro cid
    rw [keyCountF_perm hperm]
    exact keyUnique_fuseAcc k w dense bm25 colbert cid
  · intro cid
    rw [mem_keys_iff_hasKey, hasKey_perm hperm]
    unfold fuseAcc
    rw [hasKey_rrfPass w.colbert k colbertNew colbertUpd
      (fun f d r => rfl) (fun d r => rfl) colbert _ _ cid]
    rw [hasKey_rrfPass w.bm25 k bm25New bm25Upd
      (fun f d r => rfl) (fun d r => rfl) bm25 _ _ cid]
    rw [hasKey_rrfPass w.dense k denseNew denseUpd
      (fun f d r => rfl) (fun d r => rfl) dense _ _ cid]
    have hnil : hasKey ([] : List FusedResult) cid = false := rfl
    rw [hnil]
    constructor
    · rintro (((h | h) | h) | h)
      · cases h
      · exact Or.inl h
      · exact Or.inr (Or.inl h)
      · exact Or.inr (Or.inr h)
    · rintro (h | h | h)
      · exact Or.inl (Or.inl (Or.inr h))
      · exact Or.inl (Or.inr h)
      · exact Or.inr h

/-! ### Ranks and reciprocal-rank sums -/

lemma keyCount_cons (d : RetDoc) (ds : List RetDoc) (cid : String) :
    keyCount (d :: ds) cid
      = keyCount ds cid + (if d.chunk_id = cid then 1 else 0) := by
  unfold keyCount
  rw [List.countP_cons]
  by_cases h : d.chunk_id = cid <;> simp [h]

lemma posSum_eq_zero (k : ℕ) (cid : String) :
    ∀ (s : ℕ) (l : List RetDoc), keyCount l cid = 0 → posSum k cid s l = 0 := by
  intro s l
  induction l generalizing s with
  | nil =>
    intro _
    rfl
  | cons d ds ih =>
    intro h
    rw [keyCount_cons] at h
    have hd : ¬ d.chunk_id = cid := by
      intro hd
      rw [if_pos hd] at h
      omega
    have hds : keyCount ds cid = 0 := by
      rw [if_neg hd] at h
      omega
    show (if d.chunk_id = cid then (1 : ℚ) / ((k : ℚ) + (s : ℚ)) else 0)
        + posSum k cid (s + 1) ds = 0
    rw [if_neg hd, ih (s + 1) hds]
    ring

lemma keyCount_eq_zero_of_rankIn_none (cid : String) :
    ∀ (l : List RetDoc) (s : ℕ), rankIn l cid s = none → keyCount l cid = 0 := by
  intro l
  induction l with
  | nil =>
    intro s _
    rfl
  | cons d ds ih =>
    intro s h
    rw [rankIn] at h
    by_cases hd : d.chunk_id = cid
    · rw [if_pos hd] at h
      cases h
    · rw [if_neg hd] at h
      rw [keyCount_cons, if_neg hd]
      rw [ih (s + 1) h]

lemma rankIn_ge (cid : String) :
    ∀ (l : List RetDoc) (s r : ℕ), rankIn l cid s = some r → s ≤ r := by
  intro l
  induction l with
  | nil =>
    intro s r h
    cases h
  | cons d ds ih =>
    intro s r h
    rw [rankIn] at h
    by_cases hd : d.chunk_id = cid
    · rw [if_pos hd] at h
      cases h
      exact le_rfl
    · rw [if_neg hd] at h
      have := ih (s + 1) r h
      omega

lemma posSum_of_unique (k : ℕ) (cid : String) :
    ∀ (l : List RetDoc) (s r : ℕ), keyCount l cid ≤ 1 → rankIn l cid s = some r →
      posSum k cid s l = 1 / ((k : ℚ) + (r : ℚ)) := by
  intro l
  induction l with
  | nil =>
    intro s r _ h
    cases h
  | cons d ds ih =>
    intro s r hc h
    rw [rankIn] at h
    rw [keyCount_cons] at hc
    show (if d.chunk_id = cid then (1 : ℚ) / ((k : ℚ) + (s : ℚ)) else 0)
        + posSum k cid (s + 1) ds = 1 / ((k : ℚ) + (r : ℚ))
    by_cases hd : d.chunk_id = cid
    · rw [if_pos hd] at h
      rw [if_pos hd] at hc
      cases h
      have hz : keyCount ds cid = 0 := by omega
      rw [if_pos hd, posSum_eq_zero k cid (s + 1) ds hz]
      ring
    · rw [if_neg hd] at h
      rw [if_neg hd] at hc
      rw [if_neg hd, ih (s + 1) r (by omega) h]
      ring

lemma keyCount_le_one_of_nodup :
    ∀ (l : List RetDoc), (l.map RetDoc.chunk_id).Nodup → ∀ cid, keyCount l cid ≤ 1 := by
  intro l
  induction l with
  | nil =>
    intro _ cid
    exact Nat.zero_le 1
  | cons d ds ih =>
    intro hn cid
    rw [List.map_cons, List.nodup_cons] at hn
    rw [keyCount_cons]
    by_cases hd : d.chunk_id = cid
    · have hz : keyCount ds cid = 0 := by
        unfold keyCount
        rw [List.countP_eq_zero]
        intro g hg
        simp only [decide_eq_true_eq]
        intro hgc
        exact hn.1 (List.mem_map.2 ⟨g, hg, by rw [hgc, ← hd]⟩)
      rw [hz, if_pos hd]
    · rw [if_neg hd]
      have := ih hn.2 cid
      omega

lemma posSum_char (k : ℕ) (cid : String) (l : List RetDoc)
    (h : keyCount l cid ≤ 1) :
    posSum k cid 1 l
      = (match rankIn l cid 1 with
          | none => 0
          | some r => (1 : ℚ) / ((k : ℚ) + (r : ℚ))) := by
  cases hr : rankIn l cid 1
  · exact posSum_eq_zero k cid 1 l (keyCount_eq_zero_of_rankIn_none cid l 1 hr)
  · exact posSum_of_unique k cid l 1 _ h hr

/-! ## C2: the RRF scoring formula and its concrete scenario -/

/-- Claim-side contribution of one retriever to a chunk_id's rrf_score:
weight times 1/(60 + rank) when the (1-indexed) ranked list contains the
id, 0 when it does not. -/
def rrfContribution (wt : ℚ) (l : List RetDoc) (cid : String) : ℚ :=
  match rankIn l cid 1 with
  | none => 0
  | some r => wt * (1 / ((60 : ℚ) + (r : ℚ)))

/-- The dense list of the C2 concrete scenario (retriever scores are
irrelevant to rrf_score). -/
def c2dense : List RetDoc :=
  [{ chunk_id := "d1", content := "c1" }, { chunk_id := "d2", content := "c2" },
   { chunk_id := "d3", content := "c3" }]

/-- The BM25 list of the C2 concrete scenario. -/
def c2bm25 : List RetDoc :=
  [{ chunk_id := "d3", content := "c3" }, { chunk_id := "d1", content := "c1" }]

/-- C2: with k = 60, fuse gives every chunk_id an rrf_score equal to the
sum over the retrievers whose (duplicate-free) ranked list contains it of
weight * (1/(60 + rank)), rank 1-indexed; in the concrete scenario
dense=[d1,d2,d3], bm25=[d3,d1], colbert=[] with default weights, d1 scores
exactly 0.4/61 + 0.3/62, d3 scores exactly 0.4/63 + 0.3/61, and the output
order is d1, d3, d2. -/
theorem rrf_fuse_formula :
    (∀ (dense bm25 colbert : List RetDoc),
      (dense.map RetDoc.chunk_id).Nodup → (bm25.map RetDoc.chunk_id).Nodup →
      (colbert.map RetDoc.chunk_id).Nodup →
      ∀ cid, rrfScoreOf (fuse 60 defaultFusionWeights dense bm25 colbert) cid
        = rrfContribution (0.4 : ℚ) dense cid + rrfContribution (0.3 : ℚ) bm25 cid
          + rrfContribution (0.3 : ℚ) colbert cid)
    ∧ ((fuse 60 defaultFusionWeights c2dense c2bm25 []).map FusedResult.chunk_id
          = ["d1", "d3", "d2"]
        ∧ rrfScoreOf (fuse 60 defaultFusionWeights c2dense c2bm25 []) "d1"
          = (0.4 : ℚ) / (60 + 1) + (0.3 : ℚ) / (60 + 2)
        ∧ rrfScoreOf (fuse 60 defaultFusionWeights c2dense c2bm25 []) "d3"
          = (0.4 : ℚ) / (60 + 3) + (0.3 : ℚ) / (60 + 1)) := by
  constructor
  · intro dense bm25 colbert h1 h2 h3 cid
    rw [rrfScoreOf_fuse]
    have e1 := posSum_char 60 cid dense (keyCount_le_one_of_nodup dense h1 cid)
    have e2 := posSum_char 60 cid bm25 (keyCount_le_one_of_nodup bm25 h2 cid)
    have e3 := posSum_char 60 cid colbert (keyCount_le_one_of_nodup colbert h3 cid)
    rw [e1, e2, e3]
    unfold rrfContribution defaultFusionWeights
    cases hr1 : rankIn dense cid 1 <;> cases hr2 : rankIn bm25 cid 1 <;>
      cases hr3 : rankIn colbert cid 1 <;>
      simp
  · refine ⟨by decide, by decide, by decide⟩

/-- Witness for the general part of C2, at the concrete scenario lists. -/
theorem rrf_fuse_formula_witness :
    rrfScoreOf (fuse 60 defaultFusionWeights c2dense c2bm25 []) "d1"
      = rrfContribution (0.4 : ℚ) c2dense "d1" + rrfContribution (0.3 : ℚ) c2bm25 "d1"
        + rrfContribution (0.3 : ℚ) ([] : List RetDoc) "d1" :=
  rrf_fuse_formula.1 c2dense c2bm25 [] (by decide) (by decide) (by decide) "d1"

/-! ## C9: rank monotonicity of the fused score -/

/-- C9: with non-negative weights, moving a chunk_id that occurs exactly
once in a single retriever's list to a strictly earlier rank (everything
else unchanged) never decreases its fused rrf_score, and strictly
increases it when that retriever's weight is strictly positive; this
holds for each of the three retriever slots. -/
theorem rrf_rank_monotonicity (k : ℕ) (w : FusionWeights)
    (l₁ l₂ b c : List RetDoc) (cid : String) (r₁ r₂ : ℕ)
    (hw1 : 0 ≤ w.dense) (hw2 : 0 ≤ w.bm25) (hw3 : 0 ≤ w.colbert)
    (h1 : keyCount l₁ cid ≤ 1) (h2 : keyCount l₂ cid ≤ 1)
    (hr1 : rankIn l₁ cid 1 = some r₁) (hr2 : rankIn l₂ cid 1 = some r₂)
    (hlt : r₁ < r₂) :
    (rrfScoreOf (fuse k w l₂ b c) cid ≤ rrfScoreOf (fuse k w l₁ b c) cid
      ∧ (0 < w.dense →
          rrfScoreOf (fuse k w l₂ b c) cid < rrfScoreOf (fuse k w l₁ b c) cid))
    ∧ (rrfScoreOf (fuse k w b l₂ c) cid ≤ rrfScoreOf (fuse k w b l₁ c) cid
      ∧ (0 < w.bm25 →
          rrfScoreOf (fuse k w b l₂ c) cid < rrfScoreOf (fuse k w b l₁ c) cid))
    ∧ (rrfScoreOf (fuse k w b c l₂) cid ≤ rrfScoreOf (fuse k w b c l₁) cid
      ∧ (0 < w.colbert →
          rrfScoreOf (fuse k w b c l₂) cid < rrfScoreOf (fuse k w b c l₁) cid)) := by
  have e1 : posSum k cid 1 l₁ = 1 / ((k : ℚ) + (r₁ : ℚ)) :=
    posSum_of_unique k cid l₁ 1 r₁ h1 hr1
  have e2 : posSum k cid 1 l₂ = 1 / ((k : ℚ) + (r₂ : ℚ)) :=
    posSum_of_unique k cid l₂ 1 r₂ h2 hr2
  have hge1 : 1 ≤ r₁ := rankIn_ge cid l₁ 1 r₁ hr1
  have hkq : (0 : ℚ) ≤ (k : ℚ) := Nat.cast_nonneg k
  have hr1q : (1 : ℚ) ≤ (r₁ : ℚ) := by exact_mod_cast hge1
  have hltq : (r₁ : ℚ) < (r₂ : ℚ) := by exact_mod_cast hlt
  have hp1 : (0 : ℚ) < (k : ℚ) + (r₁ : ℚ) := by linarith
  have hle : (1 : ℚ) / ((k : ℚ) + (r₂ : ℚ)) ≤ 1 / ((k : ℚ) + (r₁ : ℚ)) :=
    one_div_le_one_div_of_le hp1 (by linarith)
  have hstrict : (1 : ℚ) / ((k : ℚ) + (r₂ : ℚ)) < 1 / ((k : ℚ) + (r₁ : ℚ)) :=
    one_div_lt_one_div_of_lt hp1 (by linarith)
  refine ⟨⟨?_, ?_⟩, ⟨?_, ?_⟩, ⟨?_, ?_⟩⟩
  · rw [rrfScoreOf_fuse, rrfScoreOf_fuse, e1, e2]
    have := mul_le_mul_of_nonneg_left hle hw1
    linarith
  · intro hpos
    rw [rrfScoreOf_fuse, rrfScoreOf_fuse, e1, e2]
    have := mul_lt_mul_of_pos_left hstrict hpos
    linarith
  · rw [rrfScoreOf_fuse, rrfScoreOf_fuse, e1, e2]
    have := mul_le_mul_of_nonneg_left hle hw2
    linarith
  · intro hpos
    rw [rrfScoreOf_fuse, rrfScoreOf_fuse, e1, e2]
    have := mul_lt_mul_of_pos_left hstrict hpos
    linarith
  · rw [rrfScoreOf_fuse, rrfScoreOf_fuse, e1, e2]
    have := mul_le_mul_of_nonneg_left hle hw3
    linarith
  · intro hpos
    rw [rrfScoreOf_fuse, rrfScoreOf_fuse, e1, e2]
    have := mul_lt_mul_of_pos_left hstrict hpos
    linarith

/-- Witness for C9: the chunk "t" sits at rank 1 in one dense list and at
rank 2 in another, all else empty; its fused score strictly increases at
the earlier rank. -/
theorem rrf_rank_monotonicity_witness :
    rrfScoreOf (fuse 60 defaultFusionWeights
        [{ chunk_id := "a", content := "x" }, { chunk_id := "t", content := "y" }] [] []) "t"
      < rrfScoreOf (fuse 60 defaultFusionWeights
        [{ chunk_id := "t", content := "y" }] [] []) "t" :=
  ((rrf_rank_monotonicity 60 defaultFusionWeights
      [{ chunk_id := "t", content := "y" }]
      [{ chunk_id := "a", content := "x" }, { chunk_id := "t", content := "y" }]
      [] [] "t" 1 2
      (by norm_num [defaultFusionWeights]) (by norm_num [defaultFusionWeights])
      (by norm_num [defaultFusionWeights])
      (by decide) (by decide) (by decide) (by decide) (by decide)).1.2)
    (by norm_num [defaultFusionWeights])

/-! ## C7: BM25Retriever.search

`search` computes `scores = bm25_index.get_scores(tokenized_query)` (the
external rank_bm25 library, abstracted here as the `scores` parameter),
takes `np.argsort(scores)[::-1][:top_k]` and returns, in that order, the
documents with strictly positive score, each with its bm25_score attached;
with no built index it returns [].  `np.argsort` is modelled as a stable
ascending sort of the indices 0..n-1 by score (equal scores in ascending
index order), realized by the ascending lexicographic (score, index)
order; the reversal `[::-1]` therefore puts equal scores in DESCENDING
index order. -/

/-- Ascending lexicographic comparison of indices by (score, index). -/
def leLexAsc (scores : List ℚ) (i j : ℕ) : Bool :=
  decide (scores.getD i 0 < scores.getD j 0
    ∨ (scores.getD i 0 = scores.getD j 0 ∧ i ≤ j))

/-- Model of `np.argsort(scores)`: the indices 0..n-1, stably sorted by
ascending score. -/
def argsortAsc (scores : List ℚ) : List ℕ :=
  stableSortBy (leLexAsc scores) (List.range scores.length)

/-- Out-of-range document fallback (never hit when, as in the source, the
score array is produced from the indexed documents themselves). -/
def defaultRetDoc : RetDoc := { chunk_id := "", content := "" }

/-- `BM25Retriever.search`. -/
def bm25Search (indexBuilt : Bool) (scores : List ℚ) (docs : List RetDoc)
    (topK : ℕ) : List RetDoc :=
  if indexBuilt then
    let top := ((argsortAsc scores).reverse).take topK
    (top.filter (fun i => decide (0 < scores.getD i 0))).map
      (fun i => { docs.getD i defaultRetDoc with score := scores.getD i 0 })
  else []

/-- Descending lexicographic comparison: higher score first, ties by
higher index first. -/
def geLexRev (scores : List ℚ) (i j : ℕ) : Bool := leLexAsc scores j i

/-- Spec-side reference for the amended C7: exactly the documents with
strictly positive score, sorted by descending bm25_score with ties broken
by DESCENDING original index, truncated to top_k. -/
def bm25SearchSpec (scores : List ℚ) (docs : List RetDoc) (topK : ℕ) :
    List RetDoc :=
  ((stableSortBy (geLexRev scores)
      ((List.range scores.length).filter (fun i => decide (0 < scores.getD i 0)))).take
        topK).map
    (fun i => { docs.getD i defaultRetDoc with score := scores.getD i 0 })

lemma leLexAsc_total (scores : List ℚ) (a b : ℕ) :
    leLexAsc scores a b = true ∨ leLexAsc scores b a = true := by
  unfold leLexAsc
  simp only [decide_eq_true_eq]
  rcases lt_trichotomy (scores.getD a 0) (scores.getD b 0) with h | h | h
  · exact Or.inl (Or.inl h)
  · rcases Nat.le_total a b with hab | hab
    · exact Or.inl (Or.inr ⟨h, hab⟩)
    · exact Or.inr (Or.inr ⟨h.symm, hab⟩)
  · exact Or.inr (Or.inl h)

lemma leLexAsc_trans (scores : List ℚ) (a b c : ℕ)
    (h1 : leLexAsc scores a b = true) (h2 : leLexAsc scores b c = true) :
    leLexAsc scores a c = true := by
  unfold leLexAsc at h1 h2 ⊢
  simp only [decide_eq_true_eq] at h1 h2 ⊢
  rcases h1 with h1 | h1
  · rcases h2 with h2 | h2
    · exact Or.inl (h1.trans h2)
    · exact Or.inl (lt_of_lt_of_le h1 (le_of_eq h2.1))
  · rcases h2 with h2 | h2
    · exact Or.inl (lt_of_le_of_lt (le_of_eq h1.1) h2)
    · exact Or.inr ⟨h1.1.trans h2.1, h1.2.trans h2.2⟩

lemma leLexAsc_antisymm (scores : List ℚ) (a b : ℕ)
    (h1 : leLexAsc scores a b = true) (h2 : leLexAsc scores b a = true) :
    a = b := by
  unfold leLexAsc at h1 h2
  simp only [decide_eq_true_eq] at h1 h2
  rcases h1 with h1 | h1
  · rcases h2 with h2 | h2
    · exact absurd (h1.trans h2) (lt_irrefl _)
    · rw [← h2.1] at h1
      exact absurd h1 (lt_irrefl _)
  · rcases h2 with h2 | h2
    · rw [← h1.1] at h2
      exact absurd h2 (lt_irrefl _)
    · exact Nat.le_antisymm h1.2 h2.2

lemma take_filter_comm (q : α → Bool) :
    ∀ (l : List α), l.Pairwise (fun a b => q b = true → q a = true) →
      ∀ t, (l.take t).filter q = (l.filter q).take t := by
  intro l
  induction l with
  | nil =>
    intro _ t
    simp
  | cons x xs ih =>
    intro hp t
    rw [List.pairwise_cons] at hp
    cases t with
    | zero => simp
    | succ t =>
      rw [List.take_succ_cons]
      by_cases hx : q x
      · rw [List.filter_cons_of_pos hx, List.filter_cons_of_pos hx,
          List.take_succ_cons, ih hp.2 t]
      · rw [List.filter_cons_of_neg hx, List.filter_cons_of_neg hx]
        have hnil : xs.filter q = [] := by
          rw [List.filter_eq_nil_iff]
          intro a ha hqa
          exact hx (hp.1 a ha hqa)
        have hnil2 : (xs.take t).filter q = [] := by
          rw [List.filter_eq_nil_iff]
          intro a ha hqa
          exact hx (hp.1 a (List.mem_of_mem_take ha) hqa)
        rw [hnil, hnil2]
        simp

/-- C7 counterexample to the stated tie-break: two documents with equal
positive scores come back in reverse index order, not original index
order, because the ascending argsort is reversed. -/
theorem bm25_tie_counterexample :
    (bm25Search true [1, 1]
        [{ chunk_id := "d1", content := "a" }, { chunk_id := "d2", content := "b" }]
        2).map RetDoc.chunk_id = ["d2", "d1"]
    ∧ ¬ ((bm25Search true [1, 1]
        [{ chunk_id := "d1", content := "a" }, { chunk_id := "d2", content := "b" }]
        2).map RetDoc.chunk_id = ["d1", "d2"]) := by
  decide

/-- C7 (amended): with a built index, search returns exactly the documents
with strictly positive BM25 score (up to top_k of them), ordered by
descending bm25_score with ties between equal scores broken by DESCENDING
original index; with no built index it returns the empty list.  (The
amendment is forced: `np.argsort(scores)[::-1]` reverses the ascending
order, hence also the order of equal elements.) -/
theorem bm25_search_characterization (scores : List ℚ) (docs : List RetDoc)
    (topK : ℕ) :
    bm25Search true scores docs topK = bm25SearchSpec scores docs topK
    ∧ bm25Search false scores docs topK = [] := by
  constructor
  · have htot : ∀ a b : ℕ, leLexAsc scores a b = true ∨ leLexAsc scores b a = true :=
      leLexAsc_total scores
    have htrans : ∀ a b c : ℕ, leLexAsc scores a b = true → leLexAsc scores b c = true →
        leLexAsc scores a c = true :=
      leLexAsc_trans scores
    have hA : (argsortAsc scores).Pairwise (fun i j => leLexAsc scores i j = true) :=
      sorted_stableSortBy (leLexAsc scores) htot htrans (List.range scores.length)
    have hRev : (argsortAsc scores).reverse.Pairwise
        (fun i j => geLexRev scores i j = true) :=
      List.pairwise_reverse.2 hA
    -- commute the truncation with the positivity filter on the
    -- descending-sorted index list
    have hdc : (argsortAsc scores).reverse.Pairwise
        (fun i j => decide (0 < scores.getD j 0) = true
          → decide (0 < scores.getD i 0) = true) := by
      refine hRev.imp ?_
      intro i j hij
      simp only [decide_eq_true_eq]
      intro hj
      have hle : scores.getD j 0 ≤ scores.getD i 0 := by
        unfold geLexRev leLexAsc at hij
        simp only [decide_eq_true_eq] at hij
        rcases hij with h | h
        · exact le_of_lt h
        · exact le_of_eq h.1
      exact lt_of_lt_of_le hj hle
    have hcomm := take_filter_comm (fun i => decide (0 < scores.getD i 0))
      (argsortAsc scores).reverse hdc topK
    -- the filtered descending list is the descending sort of the filtered
    -- range: same permutation class, both sorted by an antisymmetric order
    have hp0 : List.Perm (argsortAsc scores).reverse (List.range scores.length) :=
      (List.reverse_perm _).trans (stableSortBy_perm _ _)
    have hp1 : List.Perm
        ((argsortAsc scores).reverse.filter (fun i => decide (0 < scores.getD i 0)))
        ((List.range scores.length).filter (fun i => decide (0 < scores.getD i 0))) :=
      hp0.filter _
    have hp2 : List.Perm
        (stableSortBy (geLexRev scores)
          ((List.range scores.length).filter (fun i => decide (0 < scores.getD i 0))))
        ((List.range scores.length).filter (fun i => decide (0 < scores.getD i 0))) :=
      stableSortBy_perm _ _
    have hperm : List.Perm
        ((argsortAsc scores).reverse.filter (fun i => decide (0 < scores.getD i 0)))
        (stableSortBy (geLexRev scores)
          ((List.range scores.length).filter (fun i => decide (0 < scores.getD i 0)))) :=
      hp1.trans hp2.symm
    have hs1 : ((argsortAsc scores).reverse.filter
        (fun i => decide (0 < scores.getD i 0))).Pairwise
          (fun i j => geLexRev scores i j = true) :=
      hRev.filter _
    have hs2 : (stableSortBy (geLexRev scores)
        ((List.range scores.length).filter
          (fun i => decide (0 < scores.getD i 0)))).Pairwise
          (fun i j => geLexRev scores i j = true) := by
      refine sorted_stableSortBy (geLexRev scores) ?_ ?_ _
      · intro a b
        exact leLexAsc_total scores b a
      · intro a b c h1 h2
        exact leLexAsc_trans scores c b a h2 h1
    have hanti : IsAntisymm ℕ (fun i j => geLexRev scores i j = true) := by
      constructor
      intro a b h1 h2
      exact (leLexAsc_antisymm scores b a h1 h2).symm
    have heq : (argsortAsc scores).reverse.filter
          (fun i => decide (0 < scores.getD i 0))
        = stableSortBy (geLexRev scores)
            ((List.range scores.length).filter
              (fun i => decide (0 < scores.getD i 0))) := by
      exact List.eq_of_perm_of_sorted (r := fun i j => geLexRev scores i j = true)
        hperm hs1 hs2
    show ((((argsortAsc scores).reverse).take topK).filter
          (fun i => decide (0 < scores.getD i 0))).map
        (fun i => { docs.getD i defaultRetDoc with score := scores.getD i 0 })
      = bm25SearchSpec scores docs topK
    rw [hcomm, heq]
    rfl
  · rfl

end HealthSecure
